import Mathlib

/-!
Verification of the tabular Q-learning core of the Reinforcement-Learning-Maze
repository (src/models/qtable.py and src/models/qtable_trace.py).

Modelling conventions (shallow embedding):
* Python floats are modelled as rationals (`ℚ`); all arithmetic is exact.
* States and actions are opaque hashable tokens provided by the environment;
  they are modelled as `Nat`.
* A Python `dict` keyed by `(state, action)` is modelled as an association
  list in insertion order (`Dict`): lookup finds the first matching key,
  overwriting keeps the key at its position, a fresh key is appended at the
  end — exactly the observable behaviour of a Python dict.
* The external environment (`environment.Maze`) is out of scope for the
  repository core; it is modelled as a record of deterministic functions.
  Its stateful `check_win_all(model)` collaborator is modelled as an oracle
  indexed by the episode at which it is called.
* The process-wide random source (`random` / `np.random`) is modelled as an
  oracle stream consulted with a running counter: `flt k` is the value of
  the k-th draw when it is `np.random.random()`, and `idx k % n` is the
  index selected by the k-th draw when it is a `random.choice` among `n`
  items (uniform when the oracle is uniform).
* The unbounded `while True` training loop is run on fuel; exhaustion is the
  explicit result `EpRes.fuelOut`.  A Python `KeyError` raised by `Q[key]`
  is the explicit result `EpRes.keyError`.
-/

namespace RLMaze

/-- Game status returned by the environment's `step`, from `environment.Status`
(PLAYING / WIN / LOSE). -/
inductive Status where
  | PLAYING
  | WIN
  | LOSE
deriving DecidableEq, Repr

/-- Composite dictionary key `(state, action)`, both opaque tokens. -/
abbrev Key := Nat × Nat

/-- A Python dict from `(state, action)` to float, in insertion order. -/
abbrev Dict := List (Key × ℚ)

/-- Python `d.get(k)` / `d[k]` read access: first binding of the key. -/
def dlookup : Dict → Key → Option ℚ
  | [], _ => none
  | (k1, v) :: t, k => if k1 = k then some v else dlookup t k

/-- Python `d.get(k, 0.0)`: the stored value, `0.0` when the key is absent. -/
def dget (d : Dict) (k : Key) : ℚ :=
  (dlookup d k).getD 0

/-- Python `k in d.keys()`. -/
def dmem (d : Dict) (k : Key) : Bool :=
  (dlookup d k).isSome

/-- Python `d[k] = v`: overwrite the existing binding in place, else append. -/
def dinsert : Dict → Key → ℚ → Dict
  | [], k, v => [(k, v)]
  | (k1, v1) :: t, k, v => if k1 = k then (k, v) :: t else (k1, v1) :: dinsert t k v

theorem dlookup_dinsert_self (d : Dict) (k : Key) (v : ℚ) :
    dlookup (dinsert d k v) k = some v := by
  induction d with
  | nil => simp [dinsert, dlookup]
  | cons hd t ih =>
    obtain ⟨k1, v1⟩ := hd
    by_cases h : k1 = k <;> simp [dinsert, dlookup, h, ih]

theorem dlookup_dinsert_ne (d : Dict) (k k2 : Key) (v : ℚ) (hne : k ≠ k2) :
    dlookup (dinsert d k v) k2 = dlookup d k2 := by
  induction d with
  | nil => simp [dinsert, dlookup, hne]
  | cons hd t ih =>
    obtain ⟨k1, v1⟩ := hd
    by_cases h : k1 = k
    · subst h
      simp [dinsert, dlookup, hne]
    · simp only [dinsert, if_neg h]
      by_cases h2 : k1 = k2 <;> simp [dlookup, h2, ih]

theorem dget_dinsert_self (d : Dict) (k : Key) (v : ℚ) :
    dget (dinsert d k v) k = v := by
  simp [dget, dlookup_dinsert_self]

theorem dget_dinsert_ne (d : Dict) (k k2 : Key) (v : ℚ) (hne : k ≠ k2) :
    dget (dinsert d k v) k2 = dget d k2 := by
  simp [dget, dlookup_dinsert_ne d k k2 v hne]

theorem dmem_dinsert_self (d : Dict) (k : Key) (v : ℚ) :
    dmem (dinsert d k v) k = true := by
  simp [dmem, dlookup_dinsert_self]

theorem dmem_dinsert_of_dmem (d : Dict) (k k2 : Key) (v : ℚ)
    (h : dmem d k2 = true) : dmem (dinsert d k v) k2 = true := by
  by_cases hne : k = k2
  · subst hne
    exact dmem_dinsert_self d k v
  · simpa [dmem, dlookup_dinsert_ne d k k2 v hne] using h

theorem dget_eq_zero_of_not_dmem (d : Dict) (k : Key) (h : dmem d k = false) :
    dget d k = 0 := by
  unfold dmem at h
  unfold dget
  cases hl : dlookup d k with
  | none => rfl
  | some v => simp [hl] at h

/-- Python `max` over a nonempty list of floats (`max([...])`); the `[]` case
is unreachable in the source (the environment's action set is nonempty) and
is given the junk value `0`. -/
def listMax : List ℚ → ℚ
  | [] => 0
  | x :: xs => xs.foldl max x

theorem foldl_max_mem (x : ℚ) (xs : List ℚ) : xs.foldl max x ∈ x :: xs := by
  induction xs generalizing x with
  | nil => simp
  | cons y ys ih =>
    have h := ih (max x y)
    simp only [List.foldl]
    rcases List.mem_cons.mp h with h1 | h1
    · rw [h1]
      rcases max_choice x y with hm | hm <;> rw [hm]
      · exact List.mem_cons_self _ _
      · exact List.mem_cons.mpr (Or.inr (List.mem_cons_self _ _))
    · exact List.mem_cons.mpr (Or.inr (List.mem_cons.mpr (Or.inr h1)))

theorem listMax_mem (l : List ℚ) (h : l ≠ []) : listMax l ∈ l := by
  cases l with
  | nil => exact absurd rfl h
  | cons x xs => exact foldl_max_mem x xs

theorem le_foldl_max (x : ℚ) (xs : List ℚ) : x ≤ xs.foldl max x := by
  induction xs generalizing x with
  | nil => simp
  | cons y ys ih => exact le_trans (le_max_left x y) (ih (max x y))

theorem foldl_max_le_of_mem (x y : ℚ) (xs : List ℚ) (h : y ∈ xs) :
    y ≤ xs.foldl max x := by
  induction xs generalizing x with
  | nil => simp at h
  | cons z zs ih =>
    rcases List.mem_cons.mp h with h1 | h1
    · subst h1
      exact le_trans (le_max_right x y) (le_foldl_max _ zs)
    · exact ih (max x z) h1

theorem le_listMax_of_mem (l : List ℚ) (y : ℚ) (h : y ∈ l) : y ≤ listMax l := by
  cases l with
  | nil => simp at h
  | cons x xs =>
    rcases List.mem_cons.mp h with h1 | h1
    · subst h1
      exact le_foldl_max y xs
    · exact foldl_max_le_of_mem x y xs h1

theorem listMax_eq_zero_of_all_zero (l : List ℚ) (hne : l ≠ [])
    (h : ∀ x ∈ l, x = 0) : listMax l = 0 := by
  have hmem := listMax_mem l hne
  exact h _ hmem

/-- Model of the external `environment` collaborator (the `Maze` object),
which is out of this core's scope: a fixed ordered action list, the list of
valid start cells (`empty`), deterministic `reset` and `step`, and the
`check_win_all` oracle indexed by the episode at which it is queried. -/
structure Env where
  actions : List Nat
  empty : List Nat
  reset : Nat → Nat
  stepf : Nat → Nat → Nat × ℚ × Status
  checkWinAll : Nat → Bool × ℚ

/-- Oracle stream for the process-wide random source: `flt k` is the k-th
draw read as a float in `[0,1)`, `idx k` is the k-th draw read as a choice
index. -/
structure Rng where
  flt : Nat → ℚ
  idx : Nat → Nat

/-- `q(state)` of both models (qtable.py lines 129-135, qtable_trace.py lines
135-140): the vector of `Q.get((state, action), 0.0)` in the environment's
fixed action order.  The embedding is a pure function of the table, so it can
mutate no model state. -/
def qvec (env : Env) (Q : Dict) (s : Nat) : List ℚ :=
  env.actions.map (fun a => dget Q (s, a))

/-- The index set `np.nonzero(q == np.max(q))[0]` of `predict` (qtable.py
line 149): indices of the entries equal (exact equality) to the maximum. -/
def maxIdxs (q : List ℚ) : List Nat :=
  (List.range q.length).filter (fun i => decide (q.getD i 0 = listMax q))

/-- `predict(state)` of both models (qtable.py lines 137-150): the action
indices attaining the maximum of `q(state)`, one of them selected by the
random draw `j` (`random.choice`, uniform over the candidates). -/
def predict (env : Env) (Q : Dict) (s : Nat) (j : Nat) : Nat :=
  let cands := maxIdxs (qvec env Q s)
  cands.getD (j % cands.length) 0

/-- Lines 86-88 of qtable.py (93-94 of qtable_trace.py): insert `0.0` for
`(state, action)` when the key is absent, to avoid a `KeyError`. -/
def ensureKey (Q : Dict) (k : Key) : Dict :=
  if dmem Q k then Q else dinsert Q k 0

/-- Line 91 of qtable.py (96 of qtable_trace.py): `max` over the full action
set of `Q.get((next_state, a), 0.0)`. -/
def maxNextQ (env : Env) (Q : Dict) (ns : Nat) : ℚ :=
  listMax (env.actions.map (fun a => dget Q (ns, a)))

/-- The Q-table update of QTableModel.train on one transition (qtable.py
lines 86-94): ensure the key exists, bootstrap from the best next-state
value, and apply the TD update in place. -/
def qUpdate (env : Env) (lr disc : ℚ) (Q : Dict) (s a ns : Nat) (r : ℚ) : Dict :=
  let Q1 := ensureKey Q (s, a)
  let m := maxNextQ env Q1 ns
  dinsert Q1 (s, a) (dget Q1 (s, a) + lr * (r + disc * m - dget Q1 (s, a)))

theorem dget_ensureKey (Q : Dict) (k k2 : Key) :
    dget (ensureKey Q k) k2 = dget Q k2 := by
  unfold ensureKey
  by_cases h : dmem Q k = true
  · simp [h]
  · simp only [Bool.not_eq_true] at h
    simp only [h]
    by_cases hk : k = k2
    · subst hk
      rw [if_neg (by simp [h]), dget_dinsert_self, dget_eq_zero_of_not_dmem Q k h]
    · rw [if_neg (by simp [h]), dget_dinsert_ne Q k k2 0 hk]

theorem dmem_ensureKey_self (Q : Dict) (k : Key) :
    dmem (ensureKey Q k) k = true := by
  unfold ensureKey
  by_cases h : dmem Q k = true <;> simp [h, dmem_dinsert_self]

theorem dmem_ensureKey_of_dmem (Q : Dict) (k k2 : Key) (h : dmem Q k2 = true) :
    dmem (ensureKey Q k) k2 = true := by
  unfold ensureKey
  by_cases hm : dmem Q k = true <;> simp [hm, h, dmem_dinsert_of_dmem _ _ _ _ h]

theorem maxNextQ_ensureKey (env : Env) (Q : Dict) (k : Key) (ns : Nat) :
    maxNextQ env (ensureKey Q k) ns = maxNextQ env Q ns := by
  unfold maxNextQ
  congr 1
  exact List.map_congr_left (fun a _ => dget_ensureKey Q k (ns, a))

theorem qvec_length (env : Env) (Q : Dict) (s : Nat) :
    (qvec env Q s).length = env.actions.length := by
  simp [qvec]

theorem qvec_getD (env : Env) (Q : Dict) (s i : Nat) (h : i < env.actions.length) :
    (qvec env Q s).getD i 0 = dget Q (s, env.actions.getD i 0) := by
  unfold qvec
  rw [List.getD_eq_getElem?_getD, List.getD_eq_getElem?_getD,
    List.getElem?_map, List.getElem?_eq_getElem h]
  rfl

theorem qvec_all_zero (env : Env) (Q : Dict) (s : Nat)
    (h : ∀ a ∈ env.actions, dmem Q (s, a) = false) :
    qvec env Q s = List.replicate env.actions.length 0 := by
  unfold qvec
  have hgen : ∀ l : List Nat, (∀ a ∈ l, dmem Q (s, a) = false) →
      l.map (fun a => dget Q (s, a)) = List.replicate l.length 0 := by
    intro l hl
    induction l with
    | nil => rfl
    | cons x xs ih =>
      simp only [List.map_cons, List.length_cons, List.replicate_succ, List.cons.injEq]
      exact ⟨dget_eq_zero_of_not_dmem Q (s, x) (hl x (List.mem_cons_self x xs)),
        ih (fun a ha => hl a (List.mem_cons.mpr (Or.inr ha)))⟩
  exact hgen env.actions h

theorem getD_mem {α : Type} (l : List α) (i : Nat) (d : α) (h : i < l.length) :
    l.getD i d ∈ l := by
  rw [List.getD_eq_getElem?_getD, List.getElem?_eq_getElem h, Option.getD_some]
  exact List.getElem_mem h

theorem mem_maxIdxs (q : List ℚ) (i : Nat) :
    i ∈ maxIdxs q ↔ i < q.length ∧ q.getD i 0 = listMax q := by
  unfold maxIdxs
  rw [List.mem_filter, List.mem_range]
  simp only [decide_eq_true_eq]

theorem maxIdxs_ne_nil (q : List ℚ) (h : q ≠ []) : maxIdxs q ≠ [] := by
  have hm := listMax_mem q h
  rw [List.mem_iff_getElem] at hm
  obtain ⟨i, hi, hq⟩ := hm
  have hmem : i ∈ maxIdxs q := (mem_maxIdxs q i).mpr
    ⟨hi, by rw [List.getD_eq_getElem?_getD, List.getElem?_eq_getElem hi, Option.getD_some, hq]⟩
  intro hnil
  rw [hnil] at hmem
  simp at hmem

theorem predict_mem_maxIdxs (env : Env) (Q : Dict) (s j : Nat)
    (henv : env.actions ≠ []) : predict env Q s j ∈ maxIdxs (qvec env Q s) := by
  unfold predict
  have hq : qvec env Q s ≠ [] := by
    unfold qvec
    simpa using henv
  have hc := maxIdxs_ne_nil _ hq
  have hlen : 0 < (maxIdxs (qvec env Q s)).length := List.length_pos.mpr hc
  exact getD_mem _ _ _ (Nat.mod_lt _ hlen)

theorem maxIdxs_reachable (env : Env) (Q : Dict) (s i : Nat)
    (hi : i ∈ maxIdxs (qvec env Q s)) : ∃ j, predict env Q s j = i := by
  refine ⟨(maxIdxs (qvec env Q s)).indexOf i, ?_⟩
  show (maxIdxs (qvec env Q s)).getD
    ((maxIdxs (qvec env Q s)).indexOf i % (maxIdxs (qvec env Q s)).length) 0 = i
  have hlt : (maxIdxs (qvec env Q s)).indexOf i < (maxIdxs (qvec env Q s)).length :=
    List.indexOf_lt_length.mpr hi
  rw [Nat.mod_eq_of_lt hlt, List.getD_eq_getElem?_getD, List.getElem?_eq_getElem hlt,
    Option.getD_some]
  exact List.getElem_indexOf hlt

theorem maxIdxs_replicate_zero (n : Nat) (hn : 0 < n) :
    maxIdxs (List.replicate n (0 : ℚ)) = List.range n := by
  have hne : List.replicate n (0 : ℚ) ≠ [] := by
    intro h
    have := congrArg List.length h
    simp [hn.ne'] at this
  have hmax : listMax (List.replicate n (0 : ℚ)) = 0 :=
    listMax_eq_zero_of_all_zero _ hne (fun x hx => List.eq_of_mem_replicate hx)
  unfold maxIdxs
  rw [List.length_replicate, hmax]
  apply List.filter_eq_self.mpr
  intro i hi
  rw [List.getD_eq_getElem?_getD, List.getElem?_replicate]
  by_cases h : i < n <;> simp [h]

/-- A small concrete environment used to instantiate the theorems: four
actions, one start cell, every step wins immediately with reward 1, and the
convergence oracle always reports success. -/
def envW : Env :=
  ⟨[0, 1, 2, 3], [0], fun c => c, fun s _ => (s, 1, Status.WIN), fun _ => (true, 1)⟩

/-- A concrete random oracle: every float draw is 1/2, every choice index 0. -/
def rngZ : Rng := ⟨fun _ => 1/2, fun _ => 0⟩

/-- C1: after one QTableModel training update on transition
`(state, action) -> (next_state, reward, status)`, the table entry for
`(state, action)` equals `old + learning_rate * (reward + discount * m - old)`
where `old` is the pre-update entry (0.0 if absent) and `m` is the maximum
over the full action set of the next-state entries, 0.0 for absent ones. -/
theorem qtable_update_formula (env : Env) (lr disc : ℚ) (Q : Dict) (s a ns : Nat) (r : ℚ) :
    dget (qUpdate env lr disc Q s a ns r) (s, a) =
      dget Q (s, a) + lr * (r + disc * maxNextQ env Q ns - dget Q (s, a)) := by
  show dget (dinsert (ensureKey Q (s, a)) (s, a)
      (dget (ensureKey Q (s, a)) (s, a) +
        lr * (r + disc * maxNextQ env (ensureKey Q (s, a)) ns -
          dget (ensureKey Q (s, a)) (s, a)))) (s, a) = _
  rw [dget_dinsert_self, dget_ensureKey, maxNextQ_ensureKey]

/-- C4: `predict` draws uniformly among exactly the actions (indices in the
environment's action order) whose `q(state)` entry equals the maximum under
exact equality: the candidate set is characterised exactly, every random draw
lands in it, every candidate is reachable by some draw, and for a state with
no table entries the candidate set is all actions. -/
theorem predict_tie_break_spec (env : Env) (Q : Dict) (s : Nat)
    (henv : env.actions ≠ []) :
    (∀ i, i ∈ maxIdxs (qvec env Q s) ↔
        i < env.actions.length ∧ (qvec env Q s).getD i 0 = listMax (qvec env Q s))
    ∧ (∀ j, predict env Q s j ∈ maxIdxs (qvec env Q s))
    ∧ (∀ i ∈ maxIdxs (qvec env Q s), ∃ j, predict env Q s j = i)
    ∧ ((∀ a ∈ env.actions, dmem Q (s, a) = false) →
        maxIdxs (qvec env Q s) = List.range env.actions.length) := by
  refine ⟨fun i => ?_, fun j => predict_mem_maxIdxs env Q s j henv,
    fun i hi => maxIdxs_reachable env Q s i hi, fun h => ?_⟩
  · rw [mem_maxIdxs, qvec_length]
  · rw [qvec_all_zero env Q s h]
    exact maxIdxs_replicate_zero _ (List.length_pos.mpr henv)

theorem predict_tie_break_spec_witness :
    maxIdxs (qvec envW [] 0) = List.range 4 :=
  (predict_tie_break_spec envW [] 0 (by decide)).2.2.2 (fun a _ => rfl)

/-- C5: `q(state)` has one entry per environment action in the environment's
fixed order, each equal to the stored value or 0.0 when absent; the embedding
of `q` is a pure function of the table (it mutates nothing); and for a state
never updated the vector is all zeros. -/
theorem q_vector_spec (env : Env) (Q : Dict) (s : Nat) :
    (qvec env Q s).length = env.actions.length
    ∧ (∀ i, i < env.actions.length →
        (qvec env Q s).getD i 0 = dget Q (s, env.actions.getD i 0))
    ∧ ((∀ a ∈ env.actions, dmem Q (s, a) = false) →
        qvec env Q s = List.replicate env.actions.length 0) :=
  ⟨qvec_length env Q s, fun i h => qvec_getD env Q s i h, qvec_all_zero env Q s⟩

theorem q_vector_spec_witness : qvec envW [] 5 = [0, 0, 0, 0] := by
  have h := (q_vector_spec envW [] 5).2.2 (fun a _ => rfl)
  simpa using h

/-- Lines 83-86 of qtable_trace.py: `etrace[(state, action)] += 1`, with the
`KeyError` fallback `etrace[(state, action)] = 1` for a first visit. -/
def etraceInc (etr : Dict) (k : Key) : Dict :=
  match dlookup etr k with
  | some v => dinsert etr k (v + 1)
  | none => dinsert etr k 1

/-- Lines 104-106 of qtable_trace.py: every trace entry is multiplied in
place by `discount * eligibility_decay`. -/
def etraceDecay (etr : Dict) (d : ℚ) : Dict :=
  etr.map (fun kv => (kv.1, kv.2 * d))

/-- Lines 101-102 of qtable_trace.py: `for key in etrace.keys():
Q[key] += c * etrace[key]` with `c = learning_rate * delta`; the read
`Q[key]` raises `KeyError` (modelled as `none`) when the key is absent. -/
def bulkUpdate : Dict → Dict → ℚ → Option Dict
  | Q, [], _ => some Q
  | Q, (k, v) :: rest, c =>
    (dlookup Q k).bind (fun q0 => bulkUpdate (dinsert Q k (q0 + c * v)) rest c)

/-- One training step of QTableTraceModel after the action has been chosen
(qtable_trace.py lines 83-106): bump the trace, step the environment, ensure
the current key exists, compute the TD error once, apply the bulk trace
update to `Q`, then decay the whole trace.  Returns the new table, the new
trace, the next state, the reward and the status, or `none` on `KeyError`. -/
def traceStepCore (env : Env) (lr disc elig : ℚ) (Q etr : Dict) (s a : Nat) :
    Option (Dict × Dict × Nat × ℚ × Status) :=
  let etr1 := etraceInc etr (s, a)
  let res := env.stepf s a
  let ns := res.1
  let r := res.2.1
  let status := res.2.2
  let Q1 := ensureKey Q (s, a)
  let m := maxNextQ env Q1 ns
  let delta := r + disc * m - dget Q1 (s, a)
  (bulkUpdate Q1 etr1 (lr * delta)).map
    (fun Q2 => (Q2, etraceDecay etr1 (disc * elig), ns, r, status))

theorem dlookup_etraceDecay (etr : Dict) (d : ℚ) (k : Key) :
    dlookup (etraceDecay etr d) k = (dlookup etr k).map (fun v => v * d) := by
  induction etr with
  | nil => rfl
  | cons hd t ih =>
    obtain ⟨k1, v1⟩ := hd
    by_cases h : k1 = k
    · simp [etraceDecay, dlookup, h]
    · simpa [etraceDecay, dlookup, h] using ih

theorem dmem_etraceDecay (etr : Dict) (d : ℚ) (k : Key) :
    dmem (etraceDecay etr d) k = dmem etr k := by
  unfold dmem
  rw [dlookup_etraceDecay]
  cases dlookup etr k <;> rfl

theorem dget_etraceDecay (etr : Dict) (d : ℚ) (k : Key) (h : dmem etr k = true) :
    dget (etraceDecay etr d) k = dget etr k * d := by
  unfold dmem at h
  unfold dget
  rw [dlookup_etraceDecay]
  cases hl : dlookup etr k with
  | none => rw [hl] at h; simp at h
  | some v => simp

theorem dmem_of_dmem_dinsert (d : Dict) (k k2 : Key) (v : ℚ)
    (h : dmem (dinsert d k v) k2 = true) : k2 = k ∨ dmem d k2 = true := by
  by_cases hk : k = k2
  · exact Or.inl hk.symm
  · right
    rwa [dmem, dlookup_dinsert_ne d k k2 v hk] at h

theorem dmem_cons_of_ne (k1 : Key) (v1 : ℚ) (t : Dict) (k : Key) (hne : k1 ≠ k) :
    dmem ((k1, v1) :: t) k = dmem t k := by
  simp [dmem, dlookup, hne]

theorem dmem_iff_mem_keys (d : Dict) (k : Key) :
    dmem d k = true ↔ k ∈ d.map Prod.fst := by
  induction d with
  | nil => simp [dmem, dlookup]
  | cons hd t ih =>
    obtain ⟨k1, v1⟩ := hd
    by_cases h : k1 = k
    · subst h
      simp [dmem, dlookup]
    · rw [List.map_cons, List.mem_cons, dmem_cons_of_ne k1 v1 t k h, ih]
      have hne2 : k ≠ k1 := fun he => h he.symm
      simp [hne2]

theorem keys_dinsert_nodup (d : Dict) (k : Key) (v : ℚ)
    (h : (d.map Prod.fst).Nodup) : ((dinsert d k v).map Prod.fst).Nodup := by
  induction d with
  | nil => simp [dinsert]
  | cons hd t ih =>
    obtain ⟨k1, v1⟩ := hd
    simp only [List.map_cons, List.nodup_cons] at h
    by_cases hk : k1 = k
    · subst hk
      simpa [dinsert, List.nodup_cons] using h
    · simp only [dinsert, if_neg hk, List.map_cons, List.nodup_cons]
      refine ⟨fun hmem => ?_, ih h.2⟩
      rcases dmem_of_dmem_dinsert t k k1 v ((dmem_iff_mem_keys _ _).mpr hmem) with h1 | h1
      · exact hk h1
      · exact h.1 ((dmem_iff_mem_keys _ _).mp h1)

theorem keys_etraceInc_nodup (etr : Dict) (k : Key)
    (h : (etr.map Prod.fst).Nodup) : ((etraceInc etr k).map Prod.fst).Nodup := by
  unfold etraceInc
  cases dlookup etr k <;> exact keys_dinsert_nodup etr k _ h

theorem bulkUpdate_isSome (Q pairs : Dict) (c : ℚ)
    (h : ∀ k, dmem pairs k = true → dmem Q k = true) :
    ∃ Q2, bulkUpdate Q pairs c = some Q2 := by
  induction pairs generalizing Q with
  | nil => exact ⟨Q, rfl⟩
  | cons hd rest ih =>
    obtain ⟨k, v⟩ := hd
    have hmem : dmem Q k = true := h k (by simp [dmem, dlookup])
    unfold dmem at hmem
    rw [Option.isSome_iff_exists] at hmem
    obtain ⟨q0, hq0⟩ := hmem
    have hrest : ∀ k2, dmem rest k2 = true → dmem (dinsert Q k (q0 + c * v)) k2 = true := by
      intro k2 h2
      apply dmem_dinsert_of_dmem
      apply h
      by_cases hk : k = k2
      · subst hk
        simp [dmem, dlookup]
      · rw [dmem_cons_of_ne k v rest k2 hk]
        exact h2
    obtain ⟨Q2, hQ2⟩ := ih (dinsert Q k (q0 + c * v)) hrest
    exact ⟨Q2, by simp [bulkUpdate, hq0, hQ2]⟩

theorem bulkUpdate_dmem (c : ℚ) (Q2 : Dict) :
    ∀ (pairs Q : Dict), bulkUpdate Q pairs c = some Q2 →
    ∀ k, dmem Q k = true → dmem Q2 k = true := by
  intro pairs
  induction pairs with
  | nil =>
    intro Q h k hk
    simp only [bulkUpdate, Option.some.injEq] at h
    exact h ▸ hk
  | cons hd rest ih =>
    intro Q h k hk
    obtain ⟨k1, v1⟩ := hd
    simp only [bulkUpdate] at h
    cases hq : dlookup Q k1 with
    | none => rw [hq, Option.none_bind] at h; exact absurd h (by simp)
    | some q0 =>
      rw [hq, Option.some_bind] at h
      exact ih (dinsert Q k1 (q0 + c * v1)) h k (dmem_dinsert_of_dmem _ _ _ _ hk)

theorem bulkUpdate_dget (c : ℚ) (Q2 : Dict) :
    ∀ (pairs Q : Dict), (pairs.map Prod.fst).Nodup →
    bulkUpdate Q pairs c = some Q2 →
    (∀ k, dmem pairs k = true → dget Q2 k = dget Q k + c * dget pairs k)
    ∧ (∀ k, dmem pairs k = false → dget Q2 k = dget Q k) := by
  intro pairs
  induction pairs with
  | nil =>
    intro Q _ h
    simp only [bulkUpdate, Option.some.injEq] at h
    subst h
    exact ⟨fun k hk => by simp [dmem, dlookup] at hk, fun _ _ => rfl⟩
  | cons hd rest ih =>
    intro Q hnd h
    obtain ⟨k1, v1⟩ := hd
    simp only [List.map_cons, List.nodup_cons] at hnd
    simp only [bulkUpdate] at h
    cases hq : dlookup Q k1 with
    | none => rw [hq, Option.none_bind] at h; exact absurd h (by simp)
    | some q0 =>
      rw [hq, Option.some_bind] at h
      have hk1rest : dmem rest k1 = false := by
        rw [← Bool.not_eq_true]
        intro hmem
        exact hnd.1 ((dmem_iff_mem_keys _ _).mp hmem)
      obtain ⟨ih1, ih2⟩ := ih (dinsert Q k1 (q0 + c * v1)) hnd.2 h
      refine ⟨?_, ?_⟩
      · intro k hk
        by_cases hkk : k = k1
        · subst hkk
          rw [ih2 k hk1rest, dget_dinsert_self]
          simp [dget, dlookup, hq]
        · have hne1 : k1 ≠ k := fun he => hkk he.symm
          have hkrest : dmem rest k = true := by
            rwa [dmem_cons_of_ne k1 v1 rest k hne1] at hk
          rw [ih1 k hkrest, dget_dinsert_ne Q k1 k _ hne1]
          have hdg : dget ((k1, v1) :: rest) k = dget rest k := by
            simp [dget, dlookup, hne1]
          rw [hdg]
      · intro k hk
        have hne1 : k1 ≠ k := by
          intro he
          subst he
          simp [dmem, dlookup] at hk
        have hkrest : dmem rest k = false := by
          rwa [dmem_cons_of_ne k1 v1 rest k hne1] at hk
        rw [ih2 k hkrest, dget_dinsert_ne Q k1 k _ hne1]

/-- C2: on one QTableTraceModel training step, the TD error `delta` is
computed once from the current pair's pre-update Q-value (0.0 if absent),
every pair currently in the trace has its Q-value incremented by
`learning_rate * delta * etrace[key]`, and afterwards every trace entry is
multiplied by `discount * eligibility_decay`. -/
theorem trace_step_formula (env : Env) (lr disc elig : ℚ) (Q etr : Dict) (s a : Nat)
    (hnd : (etr.map Prod.fst).Nodup)
    (out : Dict × Dict × Nat × ℚ × Status)
    (h : traceStepCore env lr disc elig Q etr s a = some out) :
    ∀ k, dmem (etraceInc etr (s, a)) k = true →
      dget out.1 k = dget Q k
        + lr * (out.2.2.2.1 + disc * maxNextQ env Q out.2.2.1 - dget Q (s, a))
            * dget (etraceInc etr (s, a)) k
      ∧ dget out.2.1 k = dget (etraceInc etr (s, a)) k * (disc * elig) := by
  simp only [traceStepCore] at h
  rw [Option.map_eq_some'] at h
  obtain ⟨Qb, hb, hf⟩ := h
  subst hf
  dsimp only
  intro k hk
  have hnd1 : ((etraceInc etr (s, a)).map Prod.fst).Nodup :=
    keys_etraceInc_nodup etr (s, a) hnd
  have hup := (bulkUpdate_dget _ _ _ _ hnd1 hb).1 k hk
  constructor
  · rw [hup, dget_ensureKey, dget_ensureKey, maxNextQ_ensureKey]
  · exact dget_etraceDecay _ _ _ hk

/-- Amended C3: in an episode whose chosen pairs are `[(s0,a0), (s1,a1),
(s0,a0)]` with the two pairs distinct, the eligibility-trace value of
`(s0,a0)` immediately after the third step's increment equals
`(discount * eligibility_decay)^2 + 1` — the two prior end-of-step decays
apply — which equals the claimed 2 only when
`discount * eligibility_decay = 1`. -/
theorem trace_revisit_accumulation (env : Env) (lr disc elig : ℚ) (Q : Dict)
    (s0 a0 s1 a1 : Nat) (hne : ((s0, a0) : Key) ≠ (s1, a1))
    (out1 out2 : Dict × Dict × Nat × ℚ × Status)
    (h1 : traceStepCore env lr disc elig Q [] s0 a0 = some out1)
    (h2 : traceStepCore env lr disc elig out1.1 out1.2.1 s1 a1 = some out2) :
    dget (etraceInc out2.2.1 (s0, a0)) (s0, a0) = (disc * elig) * (disc * elig) + 1 := by
  simp only [traceStepCore] at h1 h2
  rw [Option.map_eq_some'] at h1 h2
  obtain ⟨Qb1, hb1, hf1⟩ := h1
  obtain ⟨Qb2, hb2, hf2⟩ := h2
  have he1 : out1.2.1 = etraceDecay (etraceInc [] (s0, a0)) (disc * elig) := by
    rw [← hf1]
  have he2 : out2.2.1 = etraceDecay (etraceInc out1.2.1 (s1, a1)) (disc * elig) := by
    rw [← hf2]
  rw [he2, he1]
  simp [etraceInc, etraceDecay, dget, dlookup, dinsert, hne]








/-- Concrete two-state cycling environment for counterexamples: actions 0 and
1, every step flips the state, zero reward, the game keeps playing. -/
def envC : Env :=
  ⟨[0, 1], [0], fun c => c, fun s _ => ((s + 1) % 2, 0, Status.PLAYING), fun _ => (false, 0)⟩

theorem trace_step_formula_witness :
    dget [((0, 0), (0 : ℚ))] (0, 0) = dget [] (0, 0)
      + (1/10) * (0 + (9/10) * maxNextQ envC [] 1 - dget [] (0, 0))
          * dget (etraceInc [] (0, 0)) (0, 0)
    ∧ dget [((0, 0), (18 : ℚ)/25)] (0, 0) = dget (etraceInc [] (0, 0)) (0, 0) * ((9/10) * (4/5)) :=
  trace_step_formula envC (1/10) (9/10) (4/5) [] [] 0 0 (by decide)
    ([((0, 0), 0)], [((0, 0), 18/25)], 1, 0, Status.PLAYING)
    (by norm_num [traceStepCore, etraceInc, etraceDecay, bulkUpdate, ensureKey, maxNextQ,
      qvec, listMax, dget, dmem, dlookup, dinsert, envC, -Prod.mk_zero_zero, -Prod.mk_one_one])
    (0, 0) (by decide)

/-- C3 counterexample: with the default hyperparameters (discount 0.9,
eligibility decay 0.8) and an episode choosing pairs `[(0,0), (1,1), (0,0)]`
in the concrete cycling environment, the eligibility-trace value of `(0,0)`
immediately after the third step's increment is `949/625`, not the claimed 2:
the two intermediate end-of-step decays have already shrunk the first visit's
credit. -/
theorem trace_revisit_counterexample :
    (match traceStepCore envC (1/10) (9/10) (4/5) [] [] 0 0 with
      | some out1 =>
        match traceStepCore envC (1/10) (9/10) (4/5) out1.1 out1.2.1 1 1 with
        | some out2 => dget (etraceInc out2.2.1 (0, 0)) (0, 0)
        | none => 0
      | none => 0) = 949/625 ∧ ¬((949 : ℚ)/625 = 2) := by
  constructor
  · norm_num [traceStepCore, etraceInc, etraceDecay, bulkUpdate, ensureKey, maxNextQ,
      qvec, listMax, dget, dmem, dlookup, dinsert, envC, -Prod.mk_zero_zero, -Prod.mk_one_one]
  · norm_num

theorem trace_revisit_accumulation_witness :
    dget (etraceInc [((0, 0), (324 : ℚ)/625), ((1, 1), (18 : ℚ)/25)] (0, 0)) (0, 0)
      = ((9/10) * (4/5)) * ((9/10) * (4/5)) + 1 :=
  trace_revisit_accumulation envC (1/10) (9/10) (4/5) [] 0 0 1 1 (by decide)
    ([((0, 0), 0)], [((0, 0), 18/25)], 1, 0, Status.PLAYING)
    ([((0, 0), 0), ((1, 1), 0)], [((0, 0), 324/625), ((1, 1), 18/25)], 0, 0, Status.PLAYING)
    (by norm_num [traceStepCore, etraceInc, etraceDecay, bulkUpdate, ensureKey, maxNextQ,
      qvec, listMax, dget, dmem, dlookup, dinsert, envC, -Prod.mk_zero_zero, -Prod.mk_one_one])
    (by norm_num [traceStepCore, etraceInc, etraceDecay, bulkUpdate, ensureKey, maxNextQ,
      qvec, listMax, dget, dmem, dlookup, dinsert, envC, -Prod.mk_zero_zero, -Prod.mk_one_one])

/-- Result of running fueled embedded code: a normal result, a Python
`KeyError`, or fuel exhaustion (the source's unbounded `while True`). -/
inductive EpRes (α : Type) where
  | ok (a : α)
  | keyError
  | fuelOut
deriving DecidableEq, Repr

/-- What one episode returns to the training loop: the new Q-table, the new
random counter, the reward accumulated in the episode, the number of steps,
the number of `render_q` invocations, and the final status. -/
abbrev EpOut := Dict × Nat × ℚ × Nat × Nat × Status

/-- The `while True` loop of QTableModel.train (qtable.py lines 73-102), on
fuel.  Each iteration draws the epsilon-greedy action (one float draw, then
one choice draw used either by `random.choice(actions)` or inside
`predict`), steps the environment, accumulates the reward, applies the
Q-update, breaks on WIN/LOSE, and otherwise advances the state and calls
`render_q` once. -/
def qEpisodeLoop (env : Env) (rng : Rng) (lr disc : ℚ) :
    Nat → Dict → Nat → ℚ → Nat → ℚ → Nat → Nat → EpRes EpOut
  | 0, _, _, _, _, _, _, _ => .fuelOut
  | fuel + 1, Q, c, eps, state, cum, steps, renders =>
    let action := if rng.flt c < eps
      then env.actions.getD (rng.idx (c + 1) % env.actions.length) 0
      else predict env Q state (rng.idx (c + 1))
    let res := env.stepf state action
    let Q2 := qUpdate env lr disc Q state action res.1 res.2.1
    if res.2.2 = Status.WIN ∨ res.2.2 = Status.LOSE then
      .ok (Q2, c + 2, cum + res.2.1, steps + 1, renders, res.2.2)
    else
      qEpisodeLoop env rng lr disc fuel Q2 (c + 2) eps res.1 (cum + res.2.1)
        (steps + 1) (renders + 1)

/-- The `while True` loop of QTableTraceModel.train (qtable_trace.py lines
77-113), on fuel: epsilon-greedy action selection, then the trace step
(`traceStepCore`), breaking on WIN/LOSE and otherwise advancing the state
and calling `render_q` once. -/
def traceEpisodeLoop (env : Env) (rng : Rng) (lr disc elig : ℚ) :
    Nat → Dict → Dict → Nat → ℚ → Nat → ℚ → Nat → Nat → EpRes EpOut
  | 0, _, _, _, _, _, _, _, _ => .fuelOut
  | fuel + 1, Q, etr, c, eps, state, cum, steps, renders =>
    let action := if rng.flt c < eps
      then env.actions.getD (rng.idx (c + 1) % env.actions.length) 0
      else predict env Q state (rng.idx (c + 1))
    match traceStepCore env lr disc elig Q etr state action with
    | none => .keyError
    | some (Q2, etr2, ns, r, status) =>
      if status = Status.WIN ∨ status = Status.LOSE then
        .ok (Q2, c + 2, cum + r, steps + 1, renders, status)
      else
        traceEpisodeLoop env rng lr disc elig fuel Q2 etr2 (c + 2) eps ns (cum + r)
          (steps + 1) (renders + 1)

/-- Python `list.remove(x)`: drop the first occurrence. -/
def removeFirst : List Nat → Nat → List Nat
  | [], _ => []
  | x :: t, y => if x = y then t else x :: removeFirst t y

/-- The mutable locals of `train` threaded through the episode loop: the
Q-table, the random counter, the start-cell pool, the exploration rate, the
global cumulative reward, the two reported histories, and instrumentation
recording the total `render_q` calls and each episode's (steps, status). -/
structure TState where
  Q : Dict
  c : Nat
  startList : List Nat
  eps : ℚ
  cum : ℚ
  rhist : List ℚ
  whist : List (Nat × ℚ)
  renders : Nat
  logs : List (Nat × Status)
deriving DecidableEq, Repr

/-- The `for episode in range(1, episodes + 1)` loop shared verbatim by both
models' `train` (qtable.py lines 62-118, qtable_trace.py lines 65-129),
parameterised by the per-episode body: refill the start pool when empty,
draw and remove a start cell, reset, run the episode, append the cumulative
reward, every `check_convergence_every` episodes query `check_win_all` and
append the sample and stop when it reports all-won and `stop_at_convergence`
is set, and finally decay the exploration rate.  Returns the final locals
and the number of the last episode run. -/
def runTrain (env : Env) (rng : Rng) (stopConv : Bool) (every : Nat) (decay : ℚ)
    (epBody : Dict → Nat → ℚ → Nat → EpRes EpOut) :
    Nat → Nat → TState → EpRes (TState × Nat)
  | 0, episode, st => .ok (st, episode - 1)
  | remaining + 1, episode, st =>
    let sl0 := if st.startList.isEmpty then env.empty else st.startList
    let start := sl0.getD (rng.idx st.c % sl0.length) 0
    let sl := removeFirst sl0 start
    match epBody st.Q (st.c + 1) st.eps (env.reset start) with
    | .fuelOut => .fuelOut
    | .keyError => .keyError
    | .ok (Q2, c2, dcum, steps, renders, status) =>
      let st2 : TState :=
        { Q := Q2, c := c2, startList := sl, eps := st.eps, cum := st.cum + dcum,
          rhist := st.rhist ++ [st.cum + dcum], whist := st.whist,
          renders := st.renders + renders, logs := st.logs ++ [(steps, status)] }
      if episode % every == 0 then
        let wr := env.checkWinAll episode
        let st3 : TState := { st2 with whist := st2.whist ++ [(episode, wr.2)] }
        if wr.1 && stopConv then .ok (st3, episode)
        else runTrain env rng stopConv every decay epBody remaining (episode + 1)
          { st3 with eps := st3.eps * decay }
      else runTrain env rng stopConv every decay epBody remaining (episode + 1)
        { st2 with eps := st2.eps * decay }

/-- The hyperparameters of `train` with the sources' default values
(qtable.py lines 43-51, qtable_trace.py lines 48-54); `episodes` is an
integer so that the zero-or-negative caller input of the claims is
representable. -/
structure HyperParams where
  discount : ℚ := 9/10
  explorationRate : ℚ := 1/10
  explorationDecay : ℚ := 199/200
  learningRate : ℚ := 1/10
  eligibilityDecay : ℚ := 4/5
  episodes : Int := 1000
  checkConvergenceEvery : Nat := 5

/-- The initial values of `train`'s locals (both sources): empty start pool,
zero cumulative reward, empty histories, and the model's current Q-table. -/
def initState (Q0 : Dict) (hp : HyperParams) : TState :=
  { Q := Q0, c := 0, startList := [], eps := hp.explorationRate, cum := 0,
    rhist := [], whist := [], renders := 0, logs := [] }

/-- QTableModel.train (qtable.py lines 30-127): `episodes` is clamped to a
minimum of 1 (line 48), and the shared outer loop runs with the one-step
Q-learning episode body.  `fuel` bounds each episode's unbounded inner
loop. -/
def qTableTrain (env : Env) (rng : Rng) (stopConv : Bool) (hp : HyperParams)
    (fuel : Nat) (Q0 : Dict) : EpRes (TState × Nat) :=
  runTrain env rng stopConv hp.checkConvergenceEvery hp.explorationDecay
    (fun Q c eps state => qEpisodeLoop env rng hp.learningRate hp.discount fuel
      Q c eps state 0 0 0)
    (max hp.episodes 1).toNat 1 (initState Q0 hp)

/-- QTableTraceModel.train (qtable_trace.py lines 34-133): same outer loop
with the eligibility-trace episode body; the trace starts empty at the head
of every episode (line 75). -/
def qTraceTrain (env : Env) (rng : Rng) (stopConv : Bool) (hp : HyperParams)
    (fuel : Nat) (Q0 : Dict) : EpRes (TState × Nat) :=
  runTrain env rng stopConv hp.checkConvergenceEvery hp.explorationDecay
    (fun Q c eps state => traceEpisodeLoop env rng hp.learningRate hp.discount
      hp.eligibilityDecay fuel Q [] c eps state 0 0 0)
    (max hp.episodes 1).toNat 1 (initState Q0 hp)

theorem dmem_of_dmem_etraceInc (etr : Dict) (k k2 : Key)
    (h : dmem (etraceInc etr k) k2 = true) : k2 = k ∨ dmem etr k2 = true := by
  unfold etraceInc at h
  cases hl : dlookup etr k with
  | some v => rw [hl] at h; exact dmem_of_dmem_dinsert _ _ _ _ h
  | none => rw [hl] at h; exact dmem_of_dmem_dinsert _ _ _ _ h

theorem traceStepCore_isSome (env : Env) (lr disc elig : ℚ) (Q etr : Dict) (s a : Nat)
    (hsub : ∀ k, dmem etr k = true → dmem Q k = true) :
    ∃ out, traceStepCore env lr disc elig Q etr s a = some out := by
  simp only [traceStepCore]
  have hsub1 : ∀ k, dmem (etraceInc etr (s, a)) k = true →
      dmem (ensureKey Q (s, a)) k = true := by
    intro k hk
    rcases dmem_of_dmem_etraceInc etr (s, a) k hk with h1 | h1
    · subst h1
      exact dmem_ensureKey_self Q (s, a)
    · exact dmem_ensureKey_of_dmem Q (s, a) k (hsub k h1)
  obtain ⟨Q2, hQ2⟩ := bulkUpdate_isSome (ensureKey Q (s, a)) (etraceInc etr (s, a)) _ hsub1
  rw [hQ2]
  exact ⟨_, rfl⟩

theorem traceStepCore_sub (env : Env) (lr disc elig : ℚ) (Q etr : Dict) (s a : Nat)
    (out : Dict × Dict × Nat × ℚ × Status)
    (h : traceStepCore env lr disc elig Q etr s a = some out)
    (hsub : ∀ k, dmem etr k = true → dmem Q k = true) :
    ∀ k, dmem out.2.1 k = true → dmem out.1 k = true := by
  simp only [traceStepCore] at h
  rw [Option.map_eq_some'] at h
  obtain ⟨Qb, hb, hf⟩ := h
  subst hf
  dsimp only
  intro k hk
  rw [dmem_etraceDecay] at hk
  have h1 : dmem (ensureKey Q (s, a)) k = true := by
    rcases dmem_of_dmem_etraceInc etr (s, a) k hk with h2 | h2
    · subst h2
      exact dmem_ensureKey_self Q (s, a)
    · exact dmem_ensureKey_of_dmem Q (s, a) k (hsub k h2)
  exact bulkUpdate_dmem _ _ _ _ hb k h1

theorem traceStepCore_mono (env : Env) (lr disc elig : ℚ) (Q etr : Dict) (s a : Nat)
    (out : Dict × Dict × Nat × ℚ × Status)
    (h : traceStepCore env lr disc elig Q etr s a = some out) :
    ∀ k, dmem Q k = true → dmem out.1 k = true := by
  simp only [traceStepCore] at h
  rw [Option.map_eq_some'] at h
  obtain ⟨Qb, hb, hf⟩ := h
  subst hf
  dsimp only
  intro k hk
  exact bulkUpdate_dmem _ _ _ _ hb k (dmem_ensureKey_of_dmem Q (s, a) k hk)

theorem qUpdate_dmem_mono (env : Env) (lr disc : ℚ) (Q : Dict) (s a ns : Nat) (r : ℚ)
    (k : Key) (h : dmem Q k = true) :
    dmem (qUpdate env lr disc Q s a ns r) k = true := by
  simp only [qUpdate]
  exact dmem_dinsert_of_dmem _ _ _ _ (dmem_ensureKey_of_dmem _ _ _ h)

theorem traceEpisodeLoop_ne_keyError (env : Env) (rng : Rng) (lr disc elig : ℚ) :
    ∀ (fuel : Nat) (Q etr : Dict) (c : Nat) (eps : ℚ) (state : Nat) (cum : ℚ)
      (steps renders : Nat),
      (∀ k, dmem etr k = true → dmem Q k = true) →
      traceEpisodeLoop env rng lr disc elig fuel Q etr c eps state cum steps renders ≠
        EpRes.keyError := by
  intro fuel
  induction fuel with
  | zero =>
    intro Q etr c eps state cum steps renders _
    simp [traceEpisodeLoop]
  | succ n ih =>
    intro Q etr c eps state cum steps renders hsub
    simp only [traceEpisodeLoop]
    obtain ⟨out, hout⟩ := traceStepCore_isSome env lr disc elig Q etr state
      (if rng.flt c < eps
        then env.actions.getD (rng.idx (c + 1) % env.actions.length) 0
        else predict env Q state (rng.idx (c + 1))) hsub
    have hsub2 := traceStepCore_sub env lr disc elig Q etr state _ out hout hsub
    obtain ⟨Q2, etr2, ns, r, status⟩ := out
    rw [hout]
    by_cases hterm : status = Status.WIN ∨ status = Status.LOSE
    · simp [hterm]
    · simp only [if_neg hterm]
      exact ih Q2 etr2 (c + 2) eps ns (cum + r) (steps + 1) (renders + 1) hsub2

/-- C10: a QTableTraceModel episode starts with an empty eligibility trace,
and on every step each trace key has already been inserted into the Q-table
(the current pair by this step's ensure-insert, earlier pairs by their own
steps), so the read `Q[key]` in the bulk trace update never raises
`KeyError`. -/
theorem trace_q_read_safe (env : Env) (rng : Rng) (lr disc elig : ℚ)
    (fuel : Nat) (Q : Dict) (c : Nat) (eps : ℚ) (state : Nat) (cum : ℚ)
    (steps renders : Nat) :
    traceEpisodeLoop env rng lr disc elig fuel Q [] c eps state cum steps renders ≠
      EpRes.keyError :=
  traceEpisodeLoop_ne_keyError env rng lr disc elig fuel Q [] c eps state cum
    steps renders (fun k hk => by simp [dmem, dlookup] at hk)

theorem qEpisodeLoop_render_count (env : Env) (rng : Rng) (lr disc : ℚ) :
    ∀ (fuel : Nat) (Q : Dict) (c : Nat) (eps : ℚ) (state : Nat) (cum : ℚ)
      (steps renders : Nat) (out : EpOut),
      qEpisodeLoop env rng lr disc fuel Q c eps state cum steps renders = .ok out →
      out.2.2.2.1 + renders = out.2.2.2.2.1 + steps + 1
      ∧ (out.2.2.2.2.2 = Status.WIN ∨ out.2.2.2.2.2 = Status.LOSE) := by
  intro fuel
  induction fuel with
  | zero =>
    intro Q c eps state cum steps renders out h
    exact absurd h (by simp [qEpisodeLoop])
  | succ n ih =>
    intro Q c eps state cum steps renders out h
    simp only [qEpisodeLoop] at h
    split at h
    · split at h
      · rename_i hterm
        injection h with h2
        subst h2
        exact ⟨by dsimp only; omega, by dsimp only; exact hterm⟩
      · have h2 := ih _ _ _ _ _ _ _ _ h
        exact ⟨by omega, h2.2⟩
    · split at h
      · rename_i hterm
        injection h with h2
        subst h2
        exact ⟨by dsimp only; omega, by dsimp only; exact hterm⟩
      · have h2 := ih _ _ _ _ _ _ _ _ h
        exact ⟨by omega, h2.2⟩

theorem traceEpisodeLoop_render_count (env : Env) (rng : Rng) (lr disc elig : ℚ) :
    ∀ (fuel : Nat) (Q etr : Dict) (c : Nat) (eps : ℚ) (state : Nat) (cum : ℚ)
      (steps renders : Nat) (out : EpOut),
      traceEpisodeLoop env rng lr disc elig fuel Q etr c eps state cum steps renders = .ok out →
      out.2.2.2.1 + renders = out.2.2.2.2.1 + steps + 1
      ∧ (out.2.2.2.2.2 = Status.WIN ∨ out.2.2.2.2.2 = Status.LOSE) := by
  intro fuel
  induction fuel with
  | zero =>
    intro Q etr c eps state cum steps renders out h
    exact absurd h (by simp [traceEpisodeLoop])
  | succ n ih =>
    intro Q etr c eps state cum steps renders out h
    simp only [traceEpisodeLoop] at h
    split at h
    · exact absurd h (by simp)
    · split at h
      · rename_i hterm
        injection h with h2
        subst h2
        exact ⟨by dsimp only; omega, by dsimp only; exact hterm⟩
      · have h2 := ih _ _ _ _ _ _ _ _ _ h
        exact ⟨by omega, h2.2⟩

/-- Amended C7: during training, `render_q` is invoked exactly once per
non-terminal step of every episode and is not invoked on the terminal
(WIN/LOSE) step, because the loop breaks before reaching the `render_q`
call; so a terminated episode of either model makes exactly `steps - 1`
`render_q` calls. -/
theorem render_once_per_nonterminal_step (env : Env) (rng : Rng) (lr disc elig : ℚ) :
    (∀ (fuel : Nat) (Q : Dict) (c : Nat) (eps : ℚ) (state : Nat) (out : EpOut),
      qEpisodeLoop env rng lr disc fuel Q c eps state 0 0 0 = .ok out →
      out.2.2.2.2.1 + 1 = out.2.2.2.1
      ∧ (out.2.2.2.2.2 = Status.WIN ∨ out.2.2.2.2.2 = Status.LOSE))
    ∧ (∀ (fuel : Nat) (Q : Dict) (c : Nat) (eps : ℚ) (state : Nat) (out : EpOut),
      traceEpisodeLoop env rng lr disc elig fuel Q [] c eps state 0 0 0 = .ok out →
      out.2.2.2.2.1 + 1 = out.2.2.2.1
      ∧ (out.2.2.2.2.2 = Status.WIN ∨ out.2.2.2.2.2 = Status.LOSE)) := by
  constructor
  · intro fuel Q c eps state out h
    have := qEpisodeLoop_render_count env rng lr disc fuel Q c eps state 0 0 0 out h
    exact ⟨by omega, this.2⟩
  · intro fuel Q c eps state out h
    have h2 := traceEpisodeLoop_render_count env rng lr disc elig fuel Q [] c eps state 0 0 0 out h
    exact ⟨by omega, h2.2⟩

/-- C7 counterexample: in the concrete environment whose first step already
wins, the episode runs exactly 1 step but makes 0 `render_q` calls — the
terminal step does not invoke the hook, contradicting "once per step
including the terminal step". -/
theorem render_terminal_counterexample :
    (match qEpisodeLoop envW rngZ (1/10) (9/10) 1 [] 0 1 0 0 0 0 with
      | .ok out => out.2.2.2.1 = 1 ∧ out.2.2.2.2.1 = 0 ∧ out.2.2.2.2.1 ≠ out.2.2.2.1
      | _ => False) := by
  norm_num [qEpisodeLoop, qUpdate, ensureKey, maxNextQ, listMax, List.foldl,
    dget, dmem, dlookup, dinsert, envW, rngZ, -Prod.mk_zero_zero, -Prod.mk_one_one]

theorem render_once_per_nonterminal_step_witness :
    0 + 1 = 1 ∧ (Status.WIN = Status.WIN ∨ Status.WIN = Status.LOSE) :=
  (render_once_per_nonterminal_step envW rngZ (1/10) (9/10) (4/5)).1 1 [] 0 1 0
    ([((0, 0), 1/10)], 2, 1, 1, 0, Status.WIN)
    (by norm_num [qEpisodeLoop, qUpdate, ensureKey, maxNextQ, listMax, List.foldl,
      dget, dmem, dlookup, dinsert, envW, rngZ, -Prod.mk_zero_zero, -Prod.mk_one_one])

theorem qEpisodeLoop_dmem_mono (env : Env) (rng : Rng) (lr disc : ℚ) :
    ∀ (fuel : Nat) (Q : Dict) (c : Nat) (eps : ℚ) (state : Nat) (cum : ℚ)
      (steps renders : Nat) (out : EpOut),
      qEpisodeLoop env rng lr disc fuel Q c eps state cum steps renders = .ok out →
      ∀ k, dmem Q k = true → dmem out.1 k = true := by
  intro fuel
  induction fuel with
  | zero =>
    intro Q c eps state cum steps renders out h
    exact absurd h (by simp [qEpisodeLoop])
  | succ n ih =>
    intro Q c eps state cum steps renders out h k hk
    simp only [qEpisodeLoop] at h
    split at h
    · split at h
      · injection h with h2
        subst h2
        exact qUpdate_dmem_mono env lr disc Q state _ _ _ k hk
      · exact ih _ _ _ _ _ _ _ _ h k (qUpdate_dmem_mono env lr disc Q state _ _ _ k hk)
    · split at h
      · injection h with h2
        subst h2
        exact qUpdate_dmem_mono env lr disc Q state _ _ _ k hk
      · exact ih _ _ _ _ _ _ _ _ h k (qUpdate_dmem_mono env lr disc Q state _ _ _ k hk)

theorem traceEpisodeLoop_dmem_mono (env : Env) (rng : Rng) (lr disc elig : ℚ) :
    ∀ (fuel : Nat) (Q etr : Dict) (c : Nat) (eps : ℚ) (state : Nat) (cum : ℚ)
      (steps renders : Nat) (out : EpOut),
      traceEpisodeLoop env rng lr disc elig fuel Q etr c eps state cum steps renders = .ok out →
      ∀ k, dmem Q k = true → dmem out.1 k = true := by
  intro fuel
  induction fuel with
  | zero =>
    intro Q etr c eps state cum steps renders out h
    exact absurd h (by simp [traceEpisodeLoop])
  | succ n ih =>
    intro Q etr c eps state cum steps renders out h k hk
    simp only [traceEpisodeLoop] at h
    split at h
    · exact absurd h (by simp)
    · rename_i val Q2 etr2 ns r status heq
      split at h
      · injection h with h2
        subst h2
        exact traceStepCore_mono env lr disc elig Q etr state _ _ heq k hk
      · exact ih _ _ _ _ _ _ _ _ _ h k
          (traceStepCore_mono env lr disc elig Q etr state _ _ heq k hk)

theorem runTrain_dmem_mono (env : Env) (rng : Rng) (sc : Bool) (every : Nat) (decay : ℚ)
    (epBody : Dict → Nat → ℚ → Nat → EpRes EpOut)
    (hb : ∀ Q c eps state out, epBody Q c eps state = .ok out →
      ∀ k, dmem Q k = true → dmem out.1 k = true) :
    ∀ (remaining episode : Nat) (st stf : TState) (E : Nat),
      runTrain env rng sc every decay epBody remaining episode st = .ok (stf, E) →
      ∀ k, dmem st.Q k = true → dmem stf.Q k = true := by
  intro remaining
  induction remaining with
  | zero =>
    intro episode st stf E h k hk
    simp only [runTrain] at h
    injection h with h2
    injection h2 with h3 h4
    subst h3
    exact hk
  | succ n ih =>
    intro episode st stf E h k hk
    simp only [runTrain] at h
    split at h
    · exact absurd h (by simp)
    · exact absurd h (by simp)
    · rename_i val Q2 c2 dcum steps renders status heq
      split at h
      · split at h
        · injection h with h2
          injection h2 with h3 h4
          subst h3
          exact hb _ _ _ _ _ heq k hk
        · exact ih _ _ _ _ h k (hb _ _ _ _ _ heq k hk)
      · exact ih _ _ _ _ h k (hb _ _ _ _ _ heq k hk)

/-- C9: throughout a training run of either model the set of `(state,
action)` keys in the Q-table only grows: one Q-update only inserts or
overwrites (first conjunct), one trace step only inserts or overwrites
(second conjunct), and the whole training loop of either model preserves
every key present at any intermediate state (last two conjuncts). -/
theorem qtable_keys_monotone (env : Env) (rng : Rng) (lr disc elig decay : ℚ)
    (sc : Bool) (every : Nat) :
    (∀ (Q : Dict) (s a ns : Nat) (r : ℚ) (k : Key), dmem Q k = true →
        dmem (qUpdate env lr disc Q s a ns r) k = true)
    ∧ (∀ (Q etr : Dict) (s a : Nat) (out : Dict × Dict × Nat × ℚ × Status),
        traceStepCore env lr disc elig Q etr s a = some out →
        ∀ k, dmem Q k = true → dmem out.1 k = true)
    ∧ (∀ (fuel remaining episode : Nat) (st stf : TState) (E : Nat),
        runTrain env rng sc every decay
          (fun Q c eps state => qEpisodeLoop env rng lr disc fuel Q c eps state 0 0 0)
          remaining episode st = .ok (stf, E) →
        ∀ k, dmem st.Q k = true → dmem stf.Q k = true)
    ∧ (∀ (fuel remaining episode : Nat) (st stf : TState) (E : Nat),
        runTrain env rng sc every decay
          (fun Q c eps state => traceEpisodeLoop env rng lr disc elig fuel Q [] c eps state 0 0 0)
          remaining episode st = .ok (stf, E) →
        ∀ k, dmem st.Q k = true → dmem stf.Q k = true) := by
  refine ⟨fun Q s a ns r k hk => qUpdate_dmem_mono env lr disc Q s a ns r k hk,
    fun Q etr s a out h k hk => traceStepCore_mono env lr disc elig Q etr s a out h k hk,
    fun fuel => runTrain_dmem_mono env rng sc every decay _
      (fun Q c eps state out h => qEpisodeLoop_dmem_mono env rng lr disc fuel Q c eps state 0 0 0 out h),
    fun fuel => runTrain_dmem_mono env rng sc every decay _
      (fun Q c eps state out h => traceEpisodeLoop_dmem_mono env rng lr disc elig fuel Q [] c eps state 0 0 0 out h)⟩

theorem qtable_keys_monotone_witness :
    dmem (qUpdate envW (1/10) (9/10) [((0, 0), 1)] 0 0 0 1) (0, 0) = true :=
  (qtable_keys_monotone envW rngZ (1/10) (9/10) (4/5) 1 false 5).1 [((0, 0), 1)] 0 0 0 1 (0, 0)
    (by decide)

/-- Spec-side description (refinement target) of the convergence stop: the
first episode in `[start, start+len)` that is a checkpoint (a multiple of
`check_convergence_every`) at which `check_win_all` reports winning from all
start cells. -/
def firstConvWithin (env : Env) (every start len : Nat) : Option Nat :=
  ((List.range' start len).filter
    (fun e => (e % every == 0) && (env.checkWinAll e).1)).head?

/-- Spec-side description (refinement target) of the recorded win history
over episodes `start .. start+len-1`: one `(episode, win_rate)` sample per
checkpoint. -/
def checkpointHist (env : Env) (every start len : Nat) : List (Nat × ℚ) :=
  ((List.range' start len).filter (fun e => e % every == 0)).map
    (fun e => (e, (env.checkWinAll e).2))

theorem firstConvWithin_succ (env : Env) (every start len : Nat) :
    firstConvWithin env every start (len + 1)
      = if ((start % every == 0) && (env.checkWinAll start).1) = true then some start
        else firstConvWithin env every (start + 1) len := by
  unfold firstConvWithin
  rw [List.range'_succ start len 1]
  by_cases hc : ((start % every == 0) && (env.checkWinAll start).1) = true
  · rw [List.filter_cons_of_pos (p := fun e => (e % every == 0) && (env.checkWinAll e).1) hc,
      if_pos hc]
    rfl
  · rw [List.filter_cons_of_neg (p := fun e => (e % every == 0) && (env.checkWinAll e).1) hc,
      if_neg hc]

theorem checkpointHist_succ (env : Env) (every start len : Nat) :
    checkpointHist env every start (len + 1)
      = (if (start % every == 0) = true then [(start, (env.checkWinAll start).2)] else [])
        ++ checkpointHist env every (start + 1) len := by
  unfold checkpointHist
  rw [List.range'_succ start len 1]
  by_cases hc : (start % every == 0) = true
  · rw [List.filter_cons_of_pos (p := fun e => e % every == 0) hc, if_pos hc]
    rfl
  · rw [List.filter_cons_of_neg (p := fun e => e % every == 0) hc, if_neg hc]
    rfl

theorem runTrain_conv_spec (env : Env) (rng : Rng) (every : Nat) (decay : ℚ)
    (epBody : Dict → Nat → ℚ → Nat → EpRes EpOut) :
    ∀ (remaining episode : Nat) (st stf : TState) (E : Nat), 1 ≤ episode →
      runTrain env rng true every decay epBody remaining episode st = .ok (stf, E) →
      episode ≤ E + 1 ∧ E + 1 ≤ episode + remaining
      ∧ E = (firstConvWithin env every episode remaining).getD (episode + remaining - 1)
      ∧ stf.whist = st.whist ++ checkpointHist env every episode (E + 1 - episode) := by
  intro remaining
  induction remaining with
  | zero =>
    intro episode st stf E hep h
    simp only [runTrain] at h
    injection h with h2
    injection h2 with h3 h4
    subst h3
    subst h4
    refine ⟨by omega, by omega, by simp [firstConvWithin], ?_⟩
    have hz : episode - 1 + 1 - episode = 0 := by omega
    rw [hz]
    simp [checkpointHist]
  | succ n ih =>
    intro episode st stf E hep h
    simp only [runTrain] at h
    split at h
    · exact absurd h (by simp)
    · exact absurd h (by simp)
    · rename_i val Q2 c2 dcum steps renders status heq
      split at h
      · rename_i hcp
        split at h
        · rename_i hw
          injection h with h2
          injection h2 with h3 h4
          subst h3
          subst h4
          have hw2 : (env.checkWinAll episode).1 = true := by
            simp only [Bool.and_true] at hw
            exact hw
          refine ⟨by omega, by omega, ?_, ?_⟩
          · rw [firstConvWithin_succ, if_pos (by simp [hcp, hw2])]
            rfl
          · have h1 : episode + 1 - episode = 1 := by omega
            rw [h1]
            have h2 : checkpointHist env every episode 1
                = [(episode, (env.checkWinAll episode).2)] := by
              have h3 := checkpointHist_succ env every episode 0
              rw [if_pos hcp] at h3
              rw [show checkpointHist env every (episode + 1) 0 = [] from rfl,
                List.append_nil] at h3
              exact h3
            rw [h2]
        · rename_i hw
          have hw2 : (env.checkWinAll episode).1 = false := by
            cases hb : (env.checkWinAll episode).1
            · rfl
            · exact absurd (by simp [hb]) hw
          obtain ⟨ih1, ih2, ih3, ih4⟩ := ih (episode + 1) _ stf E (by omega) h
          refine ⟨by omega, by omega, ?_, ?_⟩
          · rw [firstConvWithin_succ, if_neg (by simp [hw2])]
            rw [ih3]
            have hd : episode + 1 + n - 1 = episode + (n + 1) - 1 := by omega
            rw [hd]
          · have hE : episode ≤ E := by omega
            have h5 : E + 1 - episode = (E - episode) + 1 := by omega
            have h6 : E + 1 - (episode + 1) = E - episode := by omega
            rw [h6] at ih4
            rw [h5, checkpointHist_succ, if_pos hcp, ih4]
            dsimp only
            rw [List.append_assoc]
      · rename_i hcp
        have hcp2 : (episode % every == 0) = false := by
          cases hb : (episode % every == 0)
          · rfl
          · exact absurd hb hcp
        obtain ⟨ih1, ih2, ih3, ih4⟩ := ih (episode + 1) _ stf E (by omega) h
        refine ⟨by omega, by omega, ?_, ?_⟩
        · rw [firstConvWithin_succ, if_neg (by simp [hcp2])]
          rw [ih3]
          have hd : episode + 1 + n - 1 = episode + (n + 1) - 1 := by omega
          rw [hd]
        · have hE : episode ≤ E := by omega
          have h5 : E + 1 - episode = (E - episode) + 1 := by omega
          have h6 : E + 1 - (episode + 1) = E - episode := by omega
          rw [h6] at ih4
          rw [h5, checkpointHist_succ, if_neg (by simp [hcp2]), ih4]
          dsimp only
          rw [List.nil_append]

/-- C6: with `stop_at_convergence=True`, for both models: the win history
records exactly one `(episode, win_rate)` sample per checkpoint (multiple of
`check_convergence_every`) up to the last episode run; training halts at the
first checkpoint at which `check_win_all` reports winning from all start
cells (or after the clamped episode budget when none does); and the number
of episodes run never exceeds the requested `episodes` when that request is
at least 1. -/
theorem train_convergence_stop (env : Env) (rng : Rng) (hp : HyperParams)
    (fuel : Nat) (Q0 : Dict) :
    (∀ (stf : TState) (E : Nat), qTableTrain env rng true hp fuel Q0 = .ok (stf, E) →
      E = (firstConvWithin env hp.checkConvergenceEvery 1 (max hp.episodes 1).toNat).getD
            (max hp.episodes 1).toNat
      ∧ stf.whist = checkpointHist env hp.checkConvergenceEvery 1 E
      ∧ E ≤ (max hp.episodes 1).toNat
      ∧ (1 ≤ hp.episodes → (E : Int) ≤ hp.episodes))
    ∧ (∀ (stf : TState) (E : Nat), qTraceTrain env rng true hp fuel Q0 = .ok (stf, E) →
      E = (firstConvWithin env hp.checkConvergenceEvery 1 (max hp.episodes 1).toNat).getD
            (max hp.episodes 1).toNat
      ∧ stf.whist = checkpointHist env hp.checkConvergenceEvery 1 E
      ∧ E ≤ (max hp.episodes 1).toNat
      ∧ (1 ≤ hp.episodes → (E : Int) ≤ hp.episodes)) := by
  constructor
  · intro stf E h
    unfold qTableTrain at h
    obtain ⟨h1, h2, h3, h4⟩ := runTrain_conv_spec env rng hp.checkConvergenceEvery
      hp.explorationDecay _ (max hp.episodes 1).toNat 1 (initState Q0 hp) stf E
      (by omega) h
    refine ⟨?_, ?_, by omega, ?_⟩
    · rw [h3]
      have hd : 1 + (max hp.episodes 1).toNat - 1 = (max hp.episodes 1).toNat := by omega
      rw [hd]
    · rw [h4]
      have hE : E + 1 - 1 = E := by omega
      rw [hE]
      simp [initState]
    · intro hint
      have hm : max hp.episodes 1 = hp.episodes := max_eq_left hint
      rw [hm] at h2
      omega
  · intro stf E h
    unfold qTraceTrain at h
    obtain ⟨h1, h2, h3, h4⟩ := runTrain_conv_spec env rng hp.checkConvergenceEvery
      hp.explorationDecay _ (max hp.episodes 1).toNat 1 (initState Q0 hp) stf E
      (by omega) h
    refine ⟨?_, ?_, by omega, ?_⟩
    · rw [h3]
      have hd : 1 + (max hp.episodes 1).toNat - 1 = (max hp.episodes 1).toNat := by omega
      rw [hd]
    · rw [h4]
      have hE : E + 1 - 1 = E := by omega
      rw [hE]
      simp [initState]
    · intro hint
      have hm : max hp.episodes 1 = hp.episodes := max_eq_left hint
      rw [hm] at h2
      omega

theorem runTrain_one_episode (env : Env) (rng : Rng) (sc : Bool) (every : Nat) (decay : ℚ)
    (epBody : Dict → Nat → ℚ → Nat → EpRes EpOut) (st stf : TState) (E : Nat)
    (h : runTrain env rng sc every decay epBody 1 1 st = .ok (stf, E)) : E = 1 := by
  simp only [runTrain] at h
  split at h
  · exact absurd h (by simp)
  · exact absurd h (by simp)
  · rename_i val Q2 c2 dcum steps renders status heq
    split at h
    · split at h
      · injection h with h2
        injection h2 with h3 h4
        exact h4.symm
      · injection h with h2
        injection h2 with h3 h4
        exact h4.symm
    · injection h with h2
      injection h2 with h3 h4
      exact h4.symm

/-- C8: a requested `episodes` of zero or negative is not rejected: both
models clamp it to a minimum of 1 (`max(episodes, 1)`) and a successful
training run then runs exactly one episode. -/
theorem train_clamps_to_one_episode (env : Env) (rng : Rng) (sc : Bool)
    (hp : HyperParams) (fuel : Nat) (Q0 : Dict) (hep : hp.episodes ≤ 0) :
    (max hp.episodes 1).toNat = 1
    ∧ (∀ (stf : TState) (E : Nat), qTableTrain env rng sc hp fuel Q0 = .ok (stf, E) → E = 1)
    ∧ (∀ (stf : TState) (E : Nat), qTraceTrain env rng sc hp fuel Q0 = .ok (stf, E) → E = 1) := by
  have hmax : (max hp.episodes 1).toNat = 1 := by
    have hm : max hp.episodes 1 = 1 := max_eq_right (le_trans hep zero_le_one)
    rw [hm]
    rfl
  refine ⟨hmax, fun stf E h => ?_, fun stf E h => ?_⟩
  · unfold qTableTrain at h
    rw [hmax] at h
    exact runTrain_one_episode env rng sc hp.checkConvergenceEvery hp.explorationDecay
      _ (initState Q0 hp) stf E h
  · unfold qTraceTrain at h
    rw [hmax] at h
    exact runTrain_one_episode env rng sc hp.checkConvergenceEvery hp.explorationDecay
      _ (initState Q0 hp) stf E h

/-- Concrete hyperparameters for instantiating the training theorems:
integer-valued rates (always explore, no decay), 3 requested episodes,
convergence checked every 2 episodes. -/
def hpW : HyperParams :=
  { discount := 1, explorationRate := 1, explorationDecay := 1, learningRate := 1,
    eligibilityDecay := 1, episodes := 3, checkConvergenceEvery := 2 }

/-- Concrete hyperparameters requesting zero episodes. -/
def hpZ : HyperParams :=
  { discount := 1, explorationRate := 1, explorationDecay := 1, learningRate := 1,
    eligibilityDecay := 1, episodes := 0, checkConvergenceEvery := 2 }

/-- The final training state of the concrete converging run. -/
def stW : TState :=
  { Q := [((0, 0), 2)], c := 6, startList := [], eps := 1, cum := 2, rhist := [1, 2],
    whist := [(2, 1)], renders := 0, logs := [(1, Status.WIN), (1, Status.WIN)] }

/-- The final training state of the concrete zero-episodes run. -/
def stZ : TState :=
  { Q := [((0, 0), 1)], c := 3, startList := [], eps := 1, cum := 1, rhist := [1],
    whist := [], renders := 0, logs := [(1, Status.WIN)] }

theorem train_convergence_stop_witness :
    (2 : Nat) = (firstConvWithin envW hpW.checkConvergenceEvery 1
        (max hpW.episodes 1).toNat).getD (max hpW.episodes 1).toNat
    ∧ stW.whist = checkpointHist envW hpW.checkConvergenceEvery 1 2
    ∧ 2 ≤ (max hpW.episodes 1).toNat
    ∧ (1 ≤ hpW.episodes → ((2 : Nat) : Int) ≤ hpW.episodes) :=
  (train_convergence_stop envW rngZ hpW 2 []).1 stW 2
    (by norm_num [qTableTrain, runTrain, initState, qEpisodeLoop, qUpdate, ensureKey,
      maxNextQ, listMax, List.foldl, dget, dmem, dlookup, dinsert, removeFirst,
      envW, rngZ, hpW, stW, -Prod.mk_zero_zero, -Prod.mk_one_one])

theorem train_clamps_to_one_episode_witness :
    (max hpZ.episodes 1).toNat = 1 ∧ (1 : Nat) = 1 :=
  ⟨(train_clamps_to_one_episode envW rngZ false hpZ 2 [] (by decide)).1,
   (train_clamps_to_one_episode envW rngZ false hpZ 2 [] (by decide)).2.1 stZ 1
     (by norm_num [qTableTrain, runTrain, initState, qEpisodeLoop, qUpdate, ensureKey,
       maxNextQ, listMax, List.foldl, dget, dmem, dlookup, dinsert, removeFirst,
       envW, rngZ, hpZ, stZ, -Prod.mk_zero_zero, -Prod.mk_one_one])⟩

end RLMaze
